import Mathlib

/-!
Formal model of the walze-zwei alias database and dice-expression pipeline.

This file gives a shallow embedding of the core of the repository:

* `src/walzecore/src/db/error.rs` — the error taxonomy (`Error`);
* `src/walzecore/src/db/database.rs` — the `User` record with its namespace
  and alias operations;
* `src/src/utils/mod.rs` — the helper functions `normalize_dice_expr` and
  `split_dice`;
* `src/walzecore/src/db/mod.rs` — the `Users` store and its JSON snapshot
  boundary (`to_json` / `Users::new`).

Rust `HashMap<String, V>` values are modelled as association lists
`List (String × V)` and `HashSet<String>` values as `List String`.  A hash
map never holds two entries with the same key, so the modelled states of
interest have pairwise distinct keys; the list operations below treat all
occurrences of a key uniformly, which agrees with the hash-map semantics on
every representable state.  Strings are Lean `String`s; rolled-text
manipulation works on `List Char` (the string's character data).

Mutating Rust methods become state-passing functions: a `&mut self` method
returning `Result<T>` becomes `User → ... → Except Error T × User`.
-/

namespace Walze

/-- Error enumeration from `src/walzecore/src/db/error.rs`.  The four
variants `InvalidNamespace`, `AliasNotFound`, `NamespaceNotFound` and
`Simple` are distinct constructors, mirroring the distinct Rust enum
variants. -/
inductive Error where
  | InvalidNamespace (name : String)
  | AliasNotFound (token : String)
  | NamespaceNotFound (name : String)
  | Simple (msg : String)
deriving DecidableEq

/-- Decidable equality for `Except`, so that concrete operation results can
be evaluated by `decide`. -/
instance {ε α : Type} [DecidableEq ε] [DecidableEq α] : DecidableEq (Except ε α) := fun x y =>
  match x, y with
  | .ok a, .ok b =>
    if h : a = b then .isTrue (h ▸ rfl) else .isFalse (fun he => h (Except.ok.inj he))
  | .error a, .error b =>
    if h : a = b then .isTrue (h ▸ rfl) else .isFalse (fun he => h (Except.error.inj he))
  | .ok _, .error _ => .isFalse (fun he => Except.noConfusion he)
  | .error _, .ok _ => .isFalse (fun he => Except.noConfusion he)

/-- Lookup in an association list: the value stored under key `k`, mirroring
`HashMap::get`.  The first matching entry wins (a real hash map has at most
one). -/
def lookupA {α : Type} (k : String) : List (String × α) → Option α
  | [] => none
  | (k', v) :: rest => if k' = k then some v else lookupA k rest

/-- Key membership test, mirroring `HashMap::contains_key`. -/
def containsKey {α : Type} (k : String) : List (String × α) → Bool
  | [] => false
  | (k', _) :: rest => k' = k || containsKey k rest

/-- Insert into an association list, mirroring `HashMap::insert`: if the key
is present its value is replaced, otherwise a new entry is added. -/
def insertA {α : Type} (k : String) (v : α) : List (String × α) → List (String × α)
  | [] => [(k, v)]
  | (k', v') :: rest => if k' = k then (k, v) :: rest else (k', v') :: insertA k v rest

/-- Remove a key from an association list, mirroring `HashMap::remove`.  All
occurrences are dropped (a real hash map has at most one). -/
def eraseA {α : Type} (k : String) : List (String × α) → List (String × α)
  | [] => []
  | (k', v') :: rest => if k' = k then eraseA k rest else (k', v') :: eraseA k rest

/-- Key list of an association list (the key set of the hash map). -/
def keysOf {α : Type} (m : List (String × α)) : List String :=
  m.map Prod.fst

/-- Insert into a string set, mirroring `HashSet::insert`. -/
def insertS (x : String) (s : List String) : List String :=
  if x ∈ s then s else s ++ [x]

/-- Remove from a string set, mirroring `HashSet::remove`. -/
def eraseS (x : String) (s : List String) : List String :=
  s.filter (fun y => y ≠ x)

/-- The `User` struct of `src/walzecore/src/db/database.rs`: the active
namespace name, the set of declared namespaces, and the alias table mapping
each namespace name to its token → replacement map. -/
structure User where
  «namespace» : String
  available_namespaces : List String
  «alias» : List (String × List (String × String))
deriving DecidableEq

/-- Model of `User::new`: the active namespace is `"default"`, present in
both the namespace set and the alias table (with an empty alias map). -/
def User.new : User :=
  { «namespace» := "default"
    available_namespaces := ["default"]
    «alias» := [("default", [])] }

/-- Model of `User::add_namespace`: inserts `name` into the namespace set
and inserts an empty alias map under `name` into the alias table.  Note that
the second insert is `HashMap::insert`, which replaces any existing map. -/
def User.add_namespace (u : User) (name : String) : User :=
  { u with
    available_namespaces := insertS name u.available_namespaces
    «alias» := insertA name [] u.«alias» }

/-- Model of `User::namespace_mut`: switches the active namespace to `ns`
only when `ns` is a member of the namespace set; otherwise does nothing. -/
def User.namespace_mut (u : User) (ns : String) : User :=
  if ns ∈ u.available_namespaces then { u with «namespace» := ns } else u

/-- Model of `User::alias_mut`: inserts or overwrites `k → v` in the active
namespace's alias map; fails with `InvalidNamespace` when the active
namespace has no alias map. -/
def User.alias_mut (u : User) (k v : String) : Except Error Unit × User :=
  match lookupA u.«namespace» u.«alias» with
  | none => (.error (.InvalidNamespace u.«namespace»), u)
  | some m => (.ok (), { u with «alias» := insertA u.«namespace» (insertA k v m) u.«alias» })

/-- Model of `User::alias` (the getter; named `alias_get` here because
`alias` is the field name): looks `a` up in the active namespace's alias
map, failing with `InvalidNamespace` when the namespace is missing and with
`AliasNotFound` when the token is absent. -/
def User.alias_get (u : User) (a : String) : Except Error String :=
  match lookupA u.«namespace» u.«alias» with
  | none => .error (.InvalidNamespace u.«namespace»)
  | some m =>
    match lookupA a m with
    | some v => .ok v
    | none => .error (.AliasNotFound a)

/-- Model of `User::aliases`: all pairs of the active namespace's alias map,
failing with `InvalidNamespace` when the namespace is missing. -/
def User.aliases (u : User) : Except Error (List (String × String)) :=
  match lookupA u.«namespace» u.«alias» with
  | none => .error (.InvalidNamespace u.«namespace»)
  | some m => .ok m

/-- Model of `User::remove_alias`: fails with `NamespaceNotFound` when the
active namespace's alias map is missing, with `AliasNotFound` when the
token is absent; otherwise removes the binding and returns its prior
value. -/
def User.remove_alias (u : User) (a : String) : Except Error String × User :=
  match lookupA u.«namespace» u.«alias» with
  | none => (.error (.NamespaceNotFound u.«namespace»), u)
  | some m =>
    match lookupA a m with
    | some v => (.ok v, { u with «alias» := insertA u.«namespace» (eraseA a m) u.«alias» })
    | none => (.error (.AliasNotFound a), u)

/-- Model of `User::remove_namespace`: errors with `NamespaceNotFound` when
`ns` is not in the namespace set; otherwise removes `ns` from the set,
resets the active namespace to `"default"` when `ns` was active, and
removes and returns the entry of `ns` in the alias table (erroring, as in
the source, if the alias table unexpectedly lacks it). -/
def User.remove_namespace (u : User) (ns : String) :
    Except Error (String × List (String × String)) × User :=
  if ns ∈ u.available_namespaces then
    match lookupA ns u.«alias» with
    | some m =>
      (.ok (ns, m),
        { «namespace» := if u.«namespace» = ns then "default" else u.«namespace»
          available_namespaces := eraseS ns u.available_namespaces
          «alias» := eraseA ns u.«alias» })
    | none =>
      (.error (.NamespaceNotFound ns),
        { «namespace» := if u.«namespace» = ns then "default" else u.«namespace»
          available_namespaces := eraseS ns u.available_namespaces
          «alias» := u.«alias» })
  else
    (.error (.NamespaceNotFound ns), u)

/-- Key invariant relating the two parallel structures of a `User`: the key
set of the alias table coincides with the namespace set. -/
def KeyInv (u : User) : Prop :=
  ∀ x, x ∈ keysOf u.«alias» ↔ x ∈ u.available_namespaces

/-- Strengthened invariant for executions that never remove the protected
`"default"` namespace: the key invariant, presence of `"default"`, and
presence of the active namespace. -/
def SafeInv (u : User) : Prop :=
  KeyInv u ∧ "default" ∈ u.available_namespaces ∧ u.«namespace» ∈ u.available_namespaces

/-- Unicode white-space test, modelling Rust's `char::is_whitespace`
(the `White_Space` property), which `str::trim` uses. -/
def isRustWhitespace (c : Char) : Bool :=
  let n := c.toNat
  (0x09 ≤ n && n ≤ 0x0D) || n == 0x20 || n == 0x85 || n == 0xA0 ||
    n == 0x1680 || (0x2000 ≤ n && n ≤ 0x200A) || n == 0x2028 || n == 0x2029 ||
    n == 0x202F || n == 0x205F || n == 0x3000

/-- Model of Rust `str::trim_start` on character data. -/
def trimStart (cs : List Char) : List Char :=
  cs.dropWhile isRustWhitespace

/-- Model of Rust `str::trim_end` on character data. -/
def trimEnd (cs : List Char) : List Char :=
  (cs.reverse.dropWhile isRustWhitespace).reverse

/-- Model of Rust `str::trim` on character data: drop white space from both
ends. -/
def trim (cs : List Char) : List Char :=
  trimEnd (trimStart cs)

/-- Model of Rust `str::split(',')` on character data: the list of segments
between commas.  The empty input yields one empty segment, as in Rust. -/
def splitComma : List Char → List (List Char)
  | [] => [[]]
  | c :: cs =>
    if c = ',' then
      [] :: splitComma cs
    else
      match splitComma cs with
      | [] => [[c]]
      | s :: ss => (c :: s) :: ss

/-- Model of `split_dice` from `src/src/utils/mod.rs`:
`expr.split(',').map(str::trim).filter(|s| !s.is_empty()).collect()`. -/
def split_dice (cs : List Char) : List (List Char) :=
  ((splitComma cs).map trim).filter (fun t => !t.isEmpty)

/-- Model of `normalize_dice_expr` from `src/src/utils/mod.rs`:
`s.replace(['*', '`'], "")`, i.e. delete every asterisk and backtick
character (`Char.ofNat 96` is the backtick). -/
def normalize_dice_expr (cs : List Char) : List Char :=
  cs.filter (fun c => !(c == '*' || c == Char.ofNat 96))

/-- JSON values, restricted to the constructors the snapshot format uses
(strings, arrays, objects).  This models the tree produced and consumed by
the external `serde_json` crate at the repository's snapshot boundary. -/
inductive Json where
  | str (s : String)
  | arr (xs : List Json)
  | obj (fields : List (String × Json))

/-- Serde encoding of a `HashSet<String>`: a JSON array of strings. -/
def encodeStringList (xs : List String) : Json :=
  .arr (xs.map .str)

/-- Serde encoding of a `HashMap<String, String>`: a JSON object with
string values. -/
def encodeStrMap (m : List (String × String)) : Json :=
  .obj (m.map (fun p => (p.1, .str p.2)))

/-- Serde encoding of the derived `Serialize` for `User`: an object with
the three fields `namespace`, `available_namespaces` and `alias`. -/
def User.toJson (u : User) : Json :=
  .obj
    [("namespace", .str u.«namespace»),
     ("available_namespaces", encodeStringList u.available_namespaces),
     ("alias", .obj (u.«alias».map (fun p => (p.1, encodeStrMap p.2))))]

/-- Decode a JSON string value. -/
def decodeString : Json → Option String
  | .str s => some s
  | _ => none

/-- Decode a JSON array of strings (the `HashSet<String>` encoding). -/
def decodeStringList : Json → Option (List String)
  | .arr xs => xs.mapM decodeString
  | _ => none

/-- Decode a JSON object with string values (the `HashMap<String, String>`
encoding). -/
def decodeStrMap : Json → Option (List (String × String))
  | .obj fs => fs.mapM (fun p => (decodeString p.2).map (fun v => (p.1, v)))
  | _ => none

/-- Decode the alias table: a JSON object whose values are string maps. -/
def decodeAliasTable : Json → Option (List (String × List (String × String)))
  | .obj fs => fs.mapM (fun p => (decodeStrMap p.2).map (fun v => (p.1, v)))
  | _ => none

/-- Decoding half of the derived `Deserialize` for `User`: all three fields
must be present and well-typed. -/
def User.fromJson (j : Json) : Option User :=
  match j with
  | .obj fs => do
    let jn ← lookupA "namespace" fs
    let ns ← decodeString jn
    let ja ← lookupA "available_namespaces" fs
    let av ← decodeStringList ja
    let jl ← lookupA "alias" fs
    let al ← decodeAliasTable jl
    some { «namespace» := ns, available_namespaces := av, «alias» := al }
  | _ => none

/-- The user store of `src/walzecore/src/db/mod.rs`: a map from external
user id to `User`.  User ids are modelled as opaque strings (JSON object
keys); the Rust type is generic in the key. -/
abbrev UserStore : Type :=
  List (String × User)

/-- Model of `Users::to_json`: serialize the stored map of users to the
JSON snapshot (an object keyed by user id). -/
def Users.to_json (us : UserStore) : Json :=
  .obj (us.map (fun p => (p.1, User.toJson p.2)))

/-- Decode a full user store from a JSON snapshot value. -/
def Users.fromJson (j : Json) : Option UserStore :=
  match j with
  | .obj fs => fs.mapM (fun p => (User.fromJson p.2).map (fun v => (p.1, v)))
  | _ => none

/-- Model of `Users::new`: build the store from a snapshot, falling back to
the empty store when deserialization fails
(`serde_json::from_str(json).unwrap_or_default()`). -/
def Users.new (j : Json) : UserStore :=
  (Users.fromJson j).getD []

/-- States reachable from `User::new` by the store-level mutating
operations. -/
inductive Reachable : User → Prop where
  | new : Reachable User.new
  | add_namespace {u : User} (n : String) : Reachable u → Reachable (u.add_namespace n)
  | namespace_mut {u : User} (n : String) : Reachable u → Reachable (u.namespace_mut n)
  | alias_mut {u : User} (k v : String) : Reachable u → Reachable (u.alias_mut k v).2
  | remove_alias {u : User} (a : String) : Reachable u → Reachable (u.remove_alias a).2
  | remove_namespace {u : User} (n : String) :
      Reachable u → Reachable (u.remove_namespace n).2

/-- States reachable from `User::new` when `remove_namespace` is never
applied to the protected name `"default"` (the discipline the command layer
in `src/src/commands/alias.rs` enforces before calling the store). -/
inductive ReachableSafe : User → Prop where
  | new : ReachableSafe User.new
  | add_namespace {u : User} (n : String) : ReachableSafe u → ReachableSafe (u.add_namespace n)
  | namespace_mut {u : User} (n : String) : ReachableSafe u → ReachableSafe (u.namespace_mut n)
  | alias_mut {u : User} (k v : String) : ReachableSafe u → ReachableSafe (u.alias_mut k v).2
  | remove_alias {u : User} (a : String) : ReachableSafe u → ReachableSafe (u.remove_alias a).2
  | remove_namespace {u : User} (n : String) (hn : n ≠ "default") :
      ReachableSafe u → ReachableSafe (u.remove_namespace n).2

/-! Lemmas about the association-list and set models. -/

theorem keysOf_nil {α : Type} : keysOf ([] : List (String × α)) = [] := rfl

theorem keysOf_cons {α : Type} (k : String) (v : α) (rest : List (String × α)) :
    keysOf ((k, v) :: rest) = k :: keysOf rest := rfl

theorem lookupA_insertA_self {α : Type} (k : String) (v : α) (m : List (String × α)) :
    lookupA k (insertA k v m) = some v := by
  induction m with
  | nil => simp [insertA, lookupA]
  | cons p rest ih =>
    obtain ⟨k', v'⟩ := p
    by_cases h : k' = k
    · simp [insertA, h, lookupA]
    · simp [insertA, h, lookupA, ih]

theorem lookupA_insertA_ne {α : Type} {q k : String} (v : α) (m : List (String × α))
    (h : q ≠ k) : lookupA q (insertA k v m) = lookupA q m := by
  induction m with
  | nil => simp [insertA, lookupA, Ne.symm h]
  | cons p rest ih =>
    obtain ⟨k', v'⟩ := p
    by_cases hk : k' = k
    · subst hk
      simp [insertA, lookupA, Ne.symm h]
    · by_cases hq : k' = q
      · subst hq
        simp [insertA, hk, lookupA]
      · simp [insertA, hk, lookupA, hq, ih]

theorem lookupA_eraseA_self {α : Type} (k : String) (m : List (String × α)) :
    lookupA k (eraseA k m) = none := by
  induction m with
  | nil => simp [eraseA, lookupA]
  | cons p rest ih =>
    obtain ⟨k', v'⟩ := p
    by_cases h : k' = k
    · simp [eraseA, h, ih]
    · simp [eraseA, h, lookupA, ih]

theorem lookupA_eraseA_ne {α : Type} {q k : String} (m : List (String × α)) (h : q ≠ k) :
    lookupA q (eraseA k m) = lookupA q m := by
  induction m with
  | nil => simp [eraseA]
  | cons p rest ih =>
    obtain ⟨k', v'⟩ := p
    by_cases hk : k' = k
    · subst hk
      simp [eraseA, lookupA, Ne.symm h, ih]
    · simp [eraseA, hk, lookupA, ih]

theorem mem_keysOf_iff {α : Type} {x : String} {m : List (String × α)} :
    x ∈ keysOf m ↔ (lookupA x m).isSome := by
  induction m with
  | nil => simp [keysOf, lookupA]
  | cons p rest ih =>
    obtain ⟨k', v'⟩ := p
    by_cases h : k' = x
    · subst h
      simp [keysOf_cons, lookupA]
    · rw [keysOf_cons, List.mem_cons, lookupA]
      simp only [h, if_false, Ne.symm h, false_or]
      exact ih

theorem mem_keysOf_insertA {α : Type} {x k : String} (v : α) (m : List (String × α)) :
    x ∈ keysOf (insertA k v m) ↔ x ∈ keysOf m ∨ x = k := by
  induction m with
  | nil => simp [insertA, keysOf]
  | cons p rest ih =>
    obtain ⟨k', v'⟩ := p
    by_cases h : k' = k
    · simp [insertA, h, keysOf_cons]
      tauto
    · simp [insertA, h, keysOf_cons, ih]
      tauto

theorem mem_keysOf_eraseA {α : Type} {x k : String} (m : List (String × α)) :
    x ∈ keysOf (eraseA k m) ↔ x ∈ keysOf m ∧ x ≠ k := by
  induction m with
  | nil => simp [eraseA, keysOf]
  | cons p rest ih =>
    obtain ⟨k', v'⟩ := p
    by_cases h : k' = k
    · simp [eraseA, h, keysOf_cons, ih]
      tauto
    · rw [eraseA, if_neg h, keysOf_cons, keysOf_cons]
      simp only [List.mem_cons, ih]
      constructor
      · rintro (rfl | ⟨hx, hne⟩)
        · exact ⟨Or.inl rfl, h⟩
        · exact ⟨Or.inr hx, hne⟩
      · rintro ⟨rfl | hx, hne⟩
        · exact Or.inl rfl
        · exact Or.inr ⟨hx, hne⟩

theorem mem_insertS {x k : String} {s : List String} :
    x ∈ insertS k s ↔ x ∈ s ∨ x = k := by
  unfold insertS
  by_cases h : k ∈ s
  · rw [if_pos h]
    constructor
    · exact Or.inl
    · rintro (hx | rfl)
      · exact hx
      · exact h
  · rw [if_neg h]
    simp

theorem mem_eraseS {x k : String} {s : List String} :
    x ∈ eraseS k s ↔ x ∈ s ∧ x ≠ k := by
  simp [eraseS, List.mem_filter]

/-! Preservation of the key invariant by every store operation. -/

theorem keyInv_new : KeyInv User.new := by
  intro x
  simp [User.new, keysOf]

theorem keyInv_add_namespace {u : User} (h : KeyInv u) (n : String) :
    KeyInv (u.add_namespace n) := by
  intro x
  show x ∈ keysOf (insertA n [] u.«alias») ↔ x ∈ insertS n u.available_namespaces
  rw [mem_keysOf_insertA, mem_insertS]
  exact or_congr (h x) Iff.rfl

theorem keyInv_namespace_mut {u : User} (h : KeyInv u) (n : String) :
    KeyInv (u.namespace_mut n) := by
  unfold User.namespace_mut
  split
  · exact h
  · exact h

theorem keyInv_alias_mut {u : User} (h : KeyInv u) (k v : String) :
    KeyInv (u.alias_mut k v).2 := by
  unfold User.alias_mut
  split
  · exact h
  · next m hm =>
    intro x
    show x ∈ keysOf (insertA u.«namespace» (insertA k v m) u.«alias») ↔
      x ∈ u.available_namespaces
    rw [mem_keysOf_insertA]
    constructor
    · rintro (hx | rfl)
      · exact (h x).mp hx
      · exact (h _).mp (mem_keysOf_iff.mpr (by simp [hm]))
    · intro hx
      exact Or.inl ((h x).mpr hx)

theorem keyInv_remove_alias {u : User} (h : KeyInv u) (a : String) :
    KeyInv (u.remove_alias a).2 := by
  unfold User.remove_alias
  split
  · exact h
  · next m hm =>
    split
    · next v hv =>
      intro x
      show x ∈ keysOf (insertA u.«namespace» (eraseA a m) u.«alias») ↔
        x ∈ u.available_namespaces
      rw [mem_keysOf_insertA]
      constructor
      · rintro (hx | rfl)
        · exact (h x).mp hx
        · exact (h _).mp (mem_keysOf_iff.mpr (by simp [hm]))
      · intro hx
        exact Or.inl ((h x).mpr hx)
    · exact h

theorem keyInv_remove_namespace {u : User} (h : KeyInv u) (n : String) :
    KeyInv (u.remove_namespace n).2 := by
  unfold User.remove_namespace
  split
  · next hn =>
    split
    · next m hm =>
      intro x
      show x ∈ keysOf (eraseA n u.«alias») ↔ x ∈ eraseS n u.available_namespaces
      rw [mem_keysOf_eraseA, mem_eraseS]
      exact and_congr (h x) Iff.rfl
    · next hm =>
      exact absurd (mem_keysOf_iff.mp ((h n).mpr hn)) (by simp [hm])
  · exact h

/-- Helper: every state reachable by arbitrary store operations satisfies
the key invariant. -/
theorem reachable_keyInv {u : User} (h : Reachable u) : KeyInv u := by
  induction h with
  | new => exact keyInv_new
  | add_namespace n _ ih => exact keyInv_add_namespace ih n
  | namespace_mut n _ ih => exact keyInv_namespace_mut ih n
  | alias_mut k v _ ih => exact keyInv_alias_mut ih k v
  | remove_alias a _ ih => exact keyInv_remove_alias ih a
  | remove_namespace n _ ih => exact keyInv_remove_namespace ih n

/-- Helper: every state reachable without removing `"default"` satisfies the
strengthened invariant. -/
theorem reachableSafe_inv {u : User} (h : ReachableSafe u) : SafeInv u := by
  induction h with
  | new =>
    refine ⟨keyInv_new, ?_, ?_⟩ <;> simp [User.new]
  | add_namespace n _ ih =>
    obtain ⟨hk, hd, hc⟩ := ih
    refine ⟨keyInv_add_namespace hk n, ?_, ?_⟩
    · show "default" ∈ insertS n _
      exact mem_insertS.mpr (Or.inl hd)
    · show _ ∈ insertS n _
      exact mem_insertS.mpr (Or.inl hc)
  | namespace_mut n _ ih =>
    obtain ⟨hk, hd, hc⟩ := ih
    refine ⟨keyInv_namespace_mut hk n, ?_, ?_⟩
    · unfold User.namespace_mut
      split
      · exact hd
      · exact hd
    · unfold User.namespace_mut
      split
      · next hn => exact hn
      · exact hc
  | alias_mut k v _ ih =>
    obtain ⟨hk, hd, hc⟩ := ih
    refine ⟨keyInv_alias_mut hk k v, ?_, ?_⟩
    · unfold User.alias_mut
      split
      · exact hd
      · exact hd
    · unfold User.alias_mut
      split
      · exact hc
      · exact hc
  | remove_alias a _ ih =>
    obtain ⟨hk, hd, hc⟩ := ih
    refine ⟨keyInv_remove_alias hk a, ?_, ?_⟩
    · unfold User.remove_alias
      split
      · exact hd
      · split
        · exact hd
        · exact hd
    · unfold User.remove_alias
      split
      · exact hc
      · split
        · exact hc
        · exact hc
  | remove_namespace n hn _ ih =>
    obtain ⟨hk, hd, hc⟩ := ih
    refine ⟨keyInv_remove_namespace hk n, ?_, ?_⟩
    · unfold User.remove_namespace
      split
      · split
        · exact mem_eraseS.mpr ⟨hd, fun e => hn e.symm⟩
        · exact mem_eraseS.mpr ⟨hd, fun e => hn e.symm⟩
      · exact hd
    · unfold User.remove_namespace
      split
      · next hmem =>
        split
        · show (if _ = n then "default" else _) ∈ _
          split
          · next =>
            exact mem_eraseS.mpr ⟨hd, fun e => hn e.symm⟩
          · next hne =>
            exact mem_eraseS.mpr ⟨hc, hne⟩
        · show (if _ = n then "default" else _) ∈ _
          split
          · next =>
            exact mem_eraseS.mpr ⟨hd, fun e => hn e.symm⟩
          · next hne =>
            exact mem_eraseS.mpr ⟨hc, hne⟩
      · exact hc

/-! Claim theorems. -/

/-- C1: the claim that `add_namespace` is idempotent fails on the code.  At
the concrete state reached by `add_namespace "n"`, `namespace_mut "n"`,
`alias_mut "a" "b"`, the alias `"a"` resolves to `"b"`; calling
`add_namespace "n"` a second time clears the aliases stored under `"n"`
(the lookup now fails with `AliasNotFound`) and changes the state, because
the second `HashMap::insert` replaces the existing alias map with an empty
one.  This contradicts the method's own documentation ("If the namespace
already exists, this method has no effect."). -/
theorem C1_add_namespace_clears_aliases :
    ((((User.new.add_namespace "n").namespace_mut "n").alias_mut "a" "b").2.alias_get "a"
        = .ok "b") ∧
    (((((User.new.add_namespace "n").namespace_mut "n").alias_mut "a" "b").2.add_namespace
          "n").alias_get "a"
        = .error (.AliasNotFound "a")) ∧
    (((((User.new.add_namespace "n").namespace_mut "n").alias_mut "a" "b").2.add_namespace "n")
        ≠ (((User.new.add_namespace "n").namespace_mut "n").alias_mut "a" "b").2) := by
  refine ⟨by decide, by decide, by decide⟩

/-- C2 (counterexample): the invariant "the current namespace is always a
key of the alias table" fails for a reachable state.  A single operation
`remove_namespace "default"` from the fresh user is reachable, succeeds,
and leaves the current namespace equal to `"default"` while the alias
table no longer has any key. -/
theorem C2_counterexample :
    Reachable (User.new.remove_namespace "default").2 ∧
    (User.new.remove_namespace "default").2.«namespace» ∉
      keysOf (User.new.remove_namespace "default").2.«alias» :=
  ⟨Reachable.remove_namespace "default" Reachable.new, by decide⟩

/-- C2 (amended): for every state reachable from `User::new` by sequences
of the store operations in which `remove_namespace` is never applied to the
protected name `"default"` (the discipline the command layer enforces), the
current namespace is a key of the alias table. -/
theorem C2_current_namespace_is_alias_key {u : User} (h : ReachableSafe u) :
    u.«namespace» ∈ keysOf u.«alias» := by
  obtain ⟨hk, _, hc⟩ := reachableSafe_inv h
  exact (hk _).mpr hc

/-- C2 (witness): the amended invariant instantiated at the concrete state
reached by `add_namespace "n"` then `namespace_mut "n"`. -/
theorem C2_witness :
    ReachableSafe ((User.new.add_namespace "n").namespace_mut "n") ∧
    ((User.new.add_namespace "n").namespace_mut "n").«namespace» ∈
      keysOf ((User.new.add_namespace "n").namespace_mut "n").«alias» :=
  ⟨ReachableSafe.namespace_mut "n" (ReachableSafe.add_namespace "n" ReachableSafe.new),
   C2_current_namespace_is_alias_key
     (ReachableSafe.namespace_mut "n" (ReachableSafe.add_namespace "n" ReachableSafe.new))⟩

/-- C10: for every state reachable from `User::new` by any sequence of the
store operations, the set of available namespace names coincides with the
key set of the alias table. -/
theorem C10_available_namespaces_eq_alias_keys {u : User} (h : Reachable u) :
    ∀ x, x ∈ keysOf u.«alias» ↔ x ∈ u.available_namespaces :=
  reachable_keyInv h

/-- C10 (witness): the invariant instantiated at the fresh user and the
name `"default"`. -/
theorem C10_witness :
    Reachable User.new ∧
    ("default" ∈ keysOf User.new.«alias» ↔ "default" ∈ User.new.available_namespaces) :=
  ⟨Reachable.new, C10_available_namespaces_eq_alias_keys Reachable.new "default"⟩

/-- C4: `namespace_mut` (the `switch_namespace` of the spec) switches the
current namespace to `ns` exactly when `ns` is among the user's namespaces:
for an existing name the current namespace becomes `ns`, for a non-existing
name the whole state is unchanged, and in all cases the namespace set and
the alias table are untouched. -/
theorem C4_namespace_mut_switch_iff (u : User) (ns : String) :
    (ns ∈ u.available_namespaces → (u.namespace_mut ns).«namespace» = ns) ∧
    (ns ∉ u.available_namespaces → u.namespace_mut ns = u) ∧
    (u.namespace_mut ns).available_namespaces = u.available_namespaces ∧
    (u.namespace_mut ns).«alias» = u.«alias» := by
  refine ⟨fun h => ?_, fun h => ?_, ?_, ?_⟩
  · simp [User.namespace_mut, h]
  · simp [User.namespace_mut, h]
  · unfold User.namespace_mut
    split <;> rfl
  · unfold User.namespace_mut
    split <;> rfl

/-- C4 (witness): switching the fresh user to the existing `"default"`
keeps `"default"` active; switching it to the absent `"nope"` leaves the
state unchanged. -/
theorem C4_witness :
    ("default" ∈ User.new.available_namespaces ∧
      (User.new.namespace_mut "default").«namespace» = "default") ∧
    ("nope" ∉ User.new.available_namespaces ∧
      User.new.namespace_mut "nope" = User.new) :=
  ⟨⟨by decide, (C4_namespace_mut_switch_iff User.new "default").1 (by decide)⟩,
   ⟨by decide, (C4_namespace_mut_switch_iff User.new "nope").2.1 (by decide)⟩⟩

/-- C3: under the key invariant (which holds in every reachable state, see
the C10 theorem), `remove_namespace ns` fails with `NamespaceNotFound` and
leaves the state unchanged when `ns` does not exist; when `ns` exists it
returns `ns` together with the exact alias map previously stored under
`ns`, removes `ns` entirely (from the alias table and the namespace set,
touching no other namespace), resets the current namespace to `"default"`
exactly when `ns` was current, and leaves it unchanged otherwise.  The
statement is uniform in `ns` — in particular it applies to
`ns = "default"`, which receives no special treatment. -/
theorem C3_remove_namespace_contract (u : User) (ns : String)
    (hk : ∀ x, x ∈ keysOf u.«alias» ↔ x ∈ u.available_namespaces) :
    (ns ∉ u.available_namespaces →
      u.remove_namespace ns = (.error (.NamespaceNotFound ns), u)) ∧
    (ns ∈ u.available_namespaces →
      (∀ m, lookupA ns u.«alias» = some m → (u.remove_namespace ns).1 = .ok (ns, m)) ∧
      ns ∉ keysOf (u.remove_namespace ns).2.«alias» ∧
      ns ∉ (u.remove_namespace ns).2.available_namespaces ∧
      (∀ x, x ≠ ns → lookupA x (u.remove_namespace ns).2.«alias» = lookupA x u.«alias») ∧
      (u.«namespace» = ns → (u.remove_namespace ns).2.«namespace» = "default") ∧
      (u.«namespace» ≠ ns → (u.remove_namespace ns).2.«namespace» = u.«namespace»)) := by
  constructor
  · intro h
    unfold User.remove_namespace
    rw [if_neg h]
  · intro h
    obtain ⟨m, hm⟩ := Option.isSome_iff_exists.mp (mem_keysOf_iff.mp ((hk ns).mpr h))
    refine ⟨fun m' hm' => ?_, ?_, ?_, fun x hx => ?_, fun he => ?_, fun he => ?_⟩ <;>
      simp only [User.remove_namespace, if_pos h, hm]
    · rw [hm] at hm'
      cases hm'
      rfl
    · rw [mem_keysOf_eraseA]
      rintro ⟨-, hne⟩
      exact hne rfl
    · rw [mem_eraseS]
      rintro ⟨-, hne⟩
      exact hne rfl
    · exact lookupA_eraseA_ne u.«alias» hx
    · simp [he]
    · simp [he]

/-- C3 (witness): the contract instantiated at the fresh user and the
namespace `"default"` — which exists, is current, and is not
special-cased: it is removed, the result carries its (empty) alias map,
and the current namespace is reset to `"default"`. -/
theorem C3_witness :
    "default" ∈ User.new.available_namespaces ∧
    (User.new.remove_namespace "default").1 = .ok ("default", []) ∧
    "default" ∉ keysOf (User.new.remove_namespace "default").2.«alias» ∧
    (User.new.remove_namespace "default").2.«namespace» = "default" := by
  have h := (C3_remove_namespace_contract User.new "default" (fun _ => Iff.rfl)).2 (by decide)
  exact ⟨by decide, h.1 [] (by decide), h.2.1, h.2.2.2.2.1 rfl⟩

/-- C5: when the current namespace is present in the alias table,
`alias_mut` (the `set_alias` of the spec) succeeds and a following
`alias_get` returns the value just stored; a second `alias_mut` of the same
token overwrites the binding, so `alias_get` then returns the second
value. -/
theorem C5_set_alias_then_get (u : User) (k v v2 : String)
    (h : (lookupA u.«namespace» u.«alias»).isSome = true) :
    (u.alias_mut k v).1 = .ok () ∧
    ((u.alias_mut k v).2).alias_get k = .ok v ∧
    (((u.alias_mut k v).2).alias_mut k v2).1 = .ok () ∧
    ((((u.alias_mut k v).2).alias_mut k v2).2).alias_get k = .ok v2 := by
  obtain ⟨m, hm⟩ := Option.isSome_iff_exists.mp h
  refine ⟨?_, ?_, ?_, ?_⟩ <;>
    simp [User.alias_mut, User.alias_get, hm, lookupA_insertA_self]

/-- C5 (witness): storing `"a" → "1"` on the fresh user, reading it back,
then overwriting with `"2"` and reading again. -/
theorem C5_witness :
    (lookupA User.new.«namespace» User.new.«alias»).isSome = true ∧
    ((User.new.alias_mut "a" "1").2).alias_get "a" = .ok "1" ∧
    ((((User.new.alias_mut "a" "1").2).alias_mut "a" "2").2).alias_get "a" = .ok "2" := by
  have h := C5_set_alias_then_get User.new "a" "1" "2" (by decide)
  exact ⟨by decide, h.2.1, h.2.2.2⟩

/-- C6: `remove_alias` fails with `NamespaceNotFound` when the current
namespace's alias map is missing — an error kind distinct from the
`InvalidNamespace` produced by `alias_get`, `alias_mut` and `aliases` in
the very same situation — and leaves the state unchanged; it fails with
`AliasNotFound` and leaves the state unchanged when the token is absent;
and on a present token it removes the binding, returns the prior
replacement text, and a subsequent `alias_get` of the token fails with
`AliasNotFound`. -/
theorem C6_remove_alias_contract (u : User) (tok : String) :
    (lookupA u.«namespace» u.«alias» = none →
      u.remove_alias tok = (.error (.NamespaceNotFound u.«namespace»), u) ∧
      u.alias_get tok = .error (.InvalidNamespace u.«namespace») ∧
      (∀ v, (u.alias_mut tok v).1 = .error (.InvalidNamespace u.«namespace»)) ∧
      u.aliases = .error (.InvalidNamespace u.«namespace») ∧
      Error.NamespaceNotFound u.«namespace» ≠ Error.InvalidNamespace u.«namespace») ∧
    (∀ m, lookupA u.«namespace» u.«alias» = some m → lookupA tok m = none →
      u.remove_alias tok = (.error (.AliasNotFound tok), u)) ∧
    (∀ m v, lookupA u.«namespace» u.«alias» = some m → lookupA tok m = some v →
      (u.remove_alias tok).1 = .ok v ∧
      ((u.remove_alias tok).2).alias_get tok = .error (.AliasNotFound tok)) := by
  refine ⟨fun h => ?_, fun m hm ht => ?_, fun m v hm ht => ?_⟩
  · refine ⟨?_, ?_, fun v => ?_, ?_, ?_⟩ <;>
      simp [User.remove_alias, User.alias_get, User.alias_mut, User.aliases, h]
  · simp [User.remove_alias, hm, ht]
  · constructor <;>
      simp [User.remove_alias, User.alias_get, hm, ht, lookupA_insertA_self,
        lookupA_eraseA_self]

/-- C6 (witness): the three branches at concrete inputs — a state whose
current namespace has no alias map (obtained by removing `"default"`), an
absent token on the fresh user, and a present token stored beforehand. -/
theorem C6_witness :
    (User.new.remove_namespace "default").2.remove_alias "t"
        = (.error (.NamespaceNotFound "default"), (User.new.remove_namespace "default").2) ∧
    User.new.remove_alias "z" = (.error (.AliasNotFound "z"), User.new) ∧
    ((User.new.alias_mut "a" "1").2.remove_alias "a").1 = .ok "1" ∧
    (((User.new.alias_mut "a" "1").2.remove_alias "a").2).alias_get "a"
        = .error (.AliasNotFound "a") := by
  have h1 := (C6_remove_alias_contract (User.new.remove_namespace "default").2 "t").1 (by decide)
  have h2 := (C6_remove_alias_contract User.new "z").2.1 [] (by decide) (by decide)
  have h3 := (C6_remove_alias_contract (User.new.alias_mut "a" "1").2 "a").2.2
    [("a", "1")] "1" (by decide) (by decide)
  exact ⟨h1.1, h2, h3.1, h3.2⟩

/-! Lemmas about the splitting and trimming pipeline. -/

theorem splitComma_ne_nil (cs : List Char) : splitComma cs ≠ [] := by
  cases cs with
  | nil => simp [splitComma]
  | cons c cs =>
    by_cases h : c = ','
    · simp [splitComma, h]
    · rw [splitComma, if_neg h]
      cases hs : splitComma cs <;> simp

theorem comma_not_mem_splitComma {cs s : List Char} (hs : s ∈ splitComma cs) : ',' ∉ s := by
  induction cs generalizing s with
  | nil =>
    simp [splitComma] at hs
    subst hs
    simp
  | cons c cs ih =>
    by_cases h : c = ','
    · rw [splitComma, if_pos h] at hs
      rcases List.mem_cons.mp hs with rfl | hs'
      · simp
      · exact ih hs'
    · rw [splitComma, if_neg h] at hs
      cases he : splitComma cs with
      | nil => exact absurd he (splitComma_ne_nil cs)
      | cons s0 ss =>
        rw [he] at hs
        have hs0 : s0 ∈ splitComma cs := by
          rw [he]
          exact List.mem_cons_self s0 ss
        rcases List.mem_cons.mp hs with rfl | hs'
        · intro hc
          rcases List.mem_cons.mp hc with hc0 | hc'
          · exact h hc0.symm
          · exact ih hs0 hc'
        · refine ih ?_
          rw [he]
          exact List.mem_cons.mpr (Or.inr hs')

theorem trimStart_sublist (cs : List Char) : (trimStart cs).Sublist cs :=
  List.dropWhile_sublist _

theorem trimEnd_sublist (cs : List Char) : (trimEnd cs).Sublist cs := by
  unfold trimEnd
  have h := (List.dropWhile_sublist (l := cs.reverse) isRustWhitespace).reverse
  simpa using h

theorem trim_sublist (cs : List Char) : (trim cs).Sublist cs :=
  (trimEnd_sublist _).trans (trimStart_sublist cs)

theorem head_trimStart_not_ws {cs : List Char} {c : Char}
    (hc : (trimStart cs).head? = some c) : isRustWhitespace c = false := by
  have h := List.head?_dropWhile_not isRustWhitespace cs
  unfold trimStart at hc
  rw [hc] at h
  exact h

theorem head?_trimEnd {cs : List Char} (h : trimEnd cs ≠ []) :
    (trimEnd cs).head? = cs.head? := by
  obtain ⟨zs, hz⟩ := List.dropWhile_suffix (l := cs.reverse) isRustWhitespace
  have hcs : cs = trimEnd cs ++ zs.reverse := by
    have h2 := congrArg List.reverse hz
    simp only [List.reverse_append, List.reverse_reverse] at h2
    exact h2.symm
  conv_rhs => rw [hcs]
  rw [List.head?_append_of_ne_nil _ h]

theorem head?_trim_not_ws {cs : List Char} {c : Char}
    (hc : (trim cs).head? = some c) : isRustWhitespace c = false := by
  unfold trim at hc
  have hne : trimEnd (trimStart cs) ≠ [] := by
    intro h0
    rw [h0] at hc
    simp at hc
  rw [head?_trimEnd hne] at hc
  exact head_trimStart_not_ws hc

theorem getLast?_trim_not_ws {cs : List Char} {c : Char}
    (hc : (trim cs).getLast? = some c) : isRustWhitespace c = false := by
  unfold trim trimEnd at hc
  rw [List.getLast?_reverse] at hc
  have h := List.head?_dropWhile_not isRustWhitespace (trimStart cs).reverse
  rw [hc] at h
  exact h

/-- C7: the splitting pass `split_dice` is a total function whose output
segments are exactly the comma-delimited pieces of the input after
trimming, with the empty ones discarded: every returned segment is
non-empty, contains no `','`, and starts and ends with a non-white-space
character; the returned sequence is a subsequence of the trimmed
comma-segments in their left-to-right order; the input `",, 1d6 ,,"`
yields exactly `["1d6"]`; and the empty input yields the empty
sequence. -/
theorem C7_split_dice_properties (cs : List Char) :
    (∀ t, t ∈ split_dice cs →
      t ≠ [] ∧ ',' ∉ t ∧
      (∀ c, t.head? = some c → isRustWhitespace c = false) ∧
      (∀ c, t.getLast? = some c → isRustWhitespace c = false)) ∧
    (split_dice cs).Sublist ((splitComma cs).map trim) ∧
    split_dice (String.toList ",, 1d6 ,,") = [String.toList "1d6"] ∧
    split_dice ([] : List Char) = [] := by
  refine ⟨fun t ht => ?_, ?_, by decide, by decide⟩
  · unfold split_dice at ht
    obtain ⟨htm, htp⟩ := List.mem_filter.mp ht
    obtain ⟨s, hs, rfl⟩ := List.mem_map.mp htm
    refine ⟨by simpa using htp, ?_, fun c hc => head?_trim_not_ws hc,
      fun c hc => getLast?_trim_not_ws hc⟩
    intro hcm
    exact comma_not_mem_splitComma hs ((trim_sublist s).subset hcm)
  · unfold split_dice
    exact List.filter_sublist _

/-- C7 (witness): the membership properties instantiated at the concrete
input `",, 1d6 ,,"` and its only output segment `"1d6"`. -/
theorem C7_witness :
    String.toList "1d6" ∈ split_dice (String.toList ",, 1d6 ,,") ∧
    String.toList "1d6" ≠ [] ∧ ',' ∉ String.toList "1d6" := by
  have h := (C7_split_dice_properties (String.toList ",, 1d6 ,,")).1
    (String.toList "1d6") (by decide)
  exact ⟨by decide, h.1, h.2.1⟩

/-- C8: `normalize_dice_expr` removes exactly the asterisk and backtick
characters and nothing else: neither character occurs in the output, the
output is a subsequence of the input (all other characters kept in their
order), every character other than the two stripped ones keeps its exact
multiplicity, and the concrete input `` "`10`*crit*" `` is sanitized to
`"10crit"`. -/
theorem C8_normalize_dice_expr_spec (cs : List Char) :
    '*' ∉ normalize_dice_expr cs ∧
    Char.ofNat 96 ∉ normalize_dice_expr cs ∧
    (normalize_dice_expr cs).Sublist cs ∧
    (∀ c, c ≠ '*' → c ≠ Char.ofNat 96 →
      (normalize_dice_expr cs).count c = cs.count c) ∧
    normalize_dice_expr (String.toList "`10`*crit*") = String.toList "10crit" := by
  refine ⟨?_, ?_, ?_, fun c h1 h2 => ?_, by decide⟩
  · intro h
    simp [normalize_dice_expr, List.mem_filter] at h
  · intro h
    simp [normalize_dice_expr, List.mem_filter] at h
  · unfold normalize_dice_expr
    exact List.filter_sublist _
  · unfold normalize_dice_expr
    rw [List.count_filter]
    simp [h1, h2]

/-- C8 (witness): the multiplicity-preservation part instantiated at the
character `'1'` of the concrete input. -/
theorem C8_witness :
    ('1' ≠ '*' ∧ '1' ≠ Char.ofNat 96) ∧
    (normalize_dice_expr (String.toList "`10`*crit*")).count '1'
      = (String.toList "`10`*crit*").count '1' :=
  ⟨⟨by decide, by decide⟩,
   (C8_normalize_dice_expr_spec (String.toList "`10`*crit*")).2.2.2.1 '1'
     (by decide) (by decide)⟩

/-! Round-trip lemmas for the JSON snapshot boundary. -/

theorem decodeStringList_encode (xs : List String) :
    decodeStringList (encodeStringList xs) = some xs := by
  induction xs with
  | nil => rfl
  | cons x xs ih =>
    have ih2 : List.mapM decodeString (List.map Json.str xs) = some xs := ih
    simp only [encodeStringList, List.map_cons, decodeStringList, List.mapM_cons, ih2]
    rfl

theorem decodeStrMap_encode (m : List (String × String)) :
    decodeStrMap (encodeStrMap m) = some m := by
  induction m with
  | nil => rfl
  | cons p rest ih =>
    obtain ⟨k, v⟩ := p
    have ih2 : List.mapM (fun p => Option.map (fun v => (p.1, v)) (decodeString p.2))
        (List.map (fun p => (p.1, Json.str p.2)) rest) = some rest := ih
    simp only [encodeStrMap, List.map_cons, decodeStrMap, List.mapM_cons, ih2]
    rfl

theorem decodeAliasTable_encode (al : List (String × List (String × String))) :
    decodeAliasTable (Json.obj (al.map (fun p => (p.1, encodeStrMap p.2)))) = some al := by
  induction al with
  | nil => rfl
  | cons p rest ih =>
    obtain ⟨k, m⟩ := p
    have ih2 : List.mapM (fun p => Option.map (fun v => (p.1, v)) (decodeStrMap p.2))
        (List.map (fun p => (p.1, encodeStrMap p.2)) rest) = some rest := ih
    simp only [List.map_cons, decodeAliasTable, List.mapM_cons, decodeStrMap_encode, ih2]
    rfl

theorem User.fromJson_toJson (u : User) : User.fromJson (User.toJson u) = some u := by
  obtain ⟨ns, av, al⟩ := u
  simp [User.toJson, User.fromJson, lookupA, decodeString, decodeStringList_encode,
    decodeAliasTable_encode]

/-- C9: serializing a user store to the JSON snapshot and reconstructing a
store from it yields the very same store: decoding succeeds and `Users.new`
returns a store with the same user ids and, for each user, the same
namespaces, alias pairs and active namespace (here: an identical `User`
record).  The character-level rendering and parsing of the JSON value is
performed by the external `serde_json` crate and is modelled at the level
of JSON values. -/
theorem C9_snapshot_roundtrip (us : UserStore) :
    Users.fromJson (Users.to_json us) = some us ∧ Users.new (Users.to_json us) = us := by
  have h : Users.fromJson (Users.to_json us) = some us := by
    induction us with
    | nil => rfl
    | cons p rest ih =>
      obtain ⟨i, u⟩ := p
      have ih2 : List.mapM (fun p => Option.map (fun v => (p.1, v)) (User.fromJson p.2))
          (List.map (fun p => (p.1, User.toJson p.2)) rest) = some rest := ih
      simp only [Users.to_json, List.map_cons, Users.fromJson, List.mapM_cons,
        User.fromJson_toJson, ih2]
      rfl
  exact ⟨h, by simp [Users.new, h]⟩

end Walze
